import Mathlib

/-!
Verification of the appleseed SearchPaths layered search-path resolver
(foundation/utility/searchpaths.cpp).

The resolver state is embedded shallowly: the pimpl struct SearchPaths::Impl
holds a boost::filesystem root path and three vectors of path strings; we model
paths as plain strings under the POSIX conventions of boost::filesystem
(is_absolute means the string starts with a slash; operator/ inserts a slash;
make_preferred is the identity on POSIX). The filesystem itself is an external
collaborator and is modelled as an arbitrary existence predicate
fs : String -> Bool passed to the query operations.
-/

/-- POSIX model of boost::filesystem::path::is_absolute: a path is absolute
iff it begins with a directory separator. -/
def isAbsolute (p : String) : Bool :=
  match p.data with
  | [] => false
  | c :: _ => c == '/'

/-- POSIX model of boost::filesystem operator slash: appends a separator and
the right operand; an empty left operand yields the right operand. -/
def pjoin (a b : String) : String :=
  if a = "" then b else a ++ "/" ++ b

/-- POSIX model of boost::filesystem::path::make_preferred: the preferred
separator is already the generic one, so this is the identity. -/
def makePreferred (p : String) : String := p

/-- Modelled from the spec: foundation::split (declared in
foundation/utility/string.h, whose definition is not under src/) splits a
string on a single separator character, keeping empty tokens, as required by
the appendSplit description (empty tokens allowed through that entry point). -/
def splitCharAux (sep : Char) : List Char → List Char → List String
  | [], acc => [String.mk acc.reverse]
  | c :: cs, acc =>
      if c == sep then String.mk acc.reverse :: splitCharAux sep cs []
      else splitCharAux sep cs (c :: acc)

/-- Modelled from the spec: split a string on a separator character, keeping
empty tokens. -/
def splitChar (sep : Char) (s : String) : List String :=
  splitCharAux sep s.data []

/-- The state block SearchPaths::Impl: root path, explicit paths, environment
paths and the combined list m_all_paths. -/
structure SearchPaths where
  root_path : String
  explicit_paths : List String
  environment_paths : List String
  all_paths : List String
deriving DecidableEq, Repr

namespace SearchPaths

/-- Default constructor SearchPaths::SearchPaths(): all collections empty. -/
def initial : SearchPaths := ⟨"", [], [], []⟩

/-- One iteration of the loop in SearchPaths::SearchPaths(const char*, char):
a non-absolute token is skipped; a non-empty surviving token is appended to
both the environment list and the combined list. -/
def envStep (sp : SearchPaths) (t : String) : SearchPaths :=
  if !(isAbsolute t) then sp
  else if !(t = "") then
    { sp with
        environment_paths := sp.environment_paths ++ [t],
        all_paths := sp.all_paths ++ [t] }
  else sp

/-- Environment-seeded constructor SearchPaths::SearchPaths(const char*, char):
the value of getenv is an Option (null when the variable is unset); its tokens
are scanned in order through envStep. -/
def fromEnvironment (value : Option String) (separator : Char) : SearchPaths :=
  match value with
  | none => initial
  | some v => (splitChar separator v).foldl envStep initial

/-- SearchPaths::set_root_path: stores the path, normalized to the platform
preferred separators. -/
def set_root_path (st : SearchPaths) (path : String) : SearchPaths :=
  { st with root_path := makePreferred path }

/-- SearchPaths::has_root_path: true iff the stored root path is non-empty. -/
def has_root_path (st : SearchPaths) : Bool :=
  !(st.root_path == "")

/-- SearchPaths::clear: wipes the root path and all three collections. -/
def clear (_st : SearchPaths) : SearchPaths := initial

/-- SearchPaths::reset: empties the explicit paths and assigns the environment
paths to the combined list. -/
def reset (st : SearchPaths) : SearchPaths :=
  { st with explicit_paths := [], all_paths := st.environment_paths }

/-- SearchPaths::size: the number of explicit paths. -/
def size (st : SearchPaths) : Nat :=
  st.explicit_paths.length

/-- SearchPaths::operator[] with its assert(i < size()) contract modelled as
an Option: some element when the index is in range, none on contract
violation. -/
def get (st : SearchPaths) (i : Nat) : Option String :=
  if i < st.size then st.explicit_paths.get? i else none

/-- SearchPaths::push_back: appends the path to both the explicit list and the
combined list. -/
def push_back (st : SearchPaths) (path : String) : SearchPaths :=
  { st with
      explicit_paths := st.explicit_paths ++ [path],
      all_paths := st.all_paths ++ [path] }

/-- SearchPaths::split_and_push_back: splits on the separator and pushes each
token in order. -/
def split_and_push_back (st : SearchPaths) (paths : String) (separator : Char) :
    SearchPaths :=
  (splitChar separator paths).foldl push_back st

/-- SearchPaths::remove: erases the i-th explicit path. Note that the source
erases from m_explicit_paths only and does not touch m_all_paths. -/
def remove (st : SearchPaths) (i : Nat) : SearchPaths :=
  { st with explicit_paths := st.explicit_paths.eraseIdx i }

/-- SearchPaths::remove with its assert(i < size()) contract modelled as an
Option: none on contract violation. -/
def removeChecked (st : SearchPaths) (i : Nat) : Option SearchPaths :=
  if i < st.size then some (st.remove i) else none

/-- The loop of SearchPaths::exist over the combined paths (already given in
reverse order): anchor a relative search path under the root when a root is
set, and return true at the first candidate whose join with the target
exists. -/
def existLoop (fs : String → Bool) (st : SearchPaths) (fp : String) :
    List String → Bool
  | [] => false
  | sp :: rest =>
      let search_path :=
        if st.has_root_path && !(isAbsolute sp) then pjoin st.root_path sp
        else sp
      if fs (pjoin search_path fp) then true
      else existLoop fs st fp rest

/-- SearchPaths::exist: for a relative target, walk the combined paths in
reverse, then try the root, then fall through to a plain existence test; an
absolute target is tested directly. -/
def exist (fs : String → Bool) (st : SearchPaths) (filepath : String) : Bool :=
  if !(isAbsolute filepath) then
    if existLoop fs st filepath st.all_paths.reverse then true
    else if st.has_root_path && fs (pjoin st.root_path filepath) then true
    else fs filepath
  else fs filepath

/-- The loop of SearchPaths::do_qualify: like the exist loop but on a hit it
returns the joined candidate path together with the raw search-path entry
that produced it. -/
def qualifyLoop (fs : String → Bool) (st : SearchPaths) (fp : String) :
    List String → Option (String × String)
  | [] => none
  | sp :: rest =>
      let search_path :=
        if st.has_root_path && !(isAbsolute sp) then pjoin st.root_path sp
        else sp
      let qualified_fp := pjoin search_path fp
      if fs qualified_fp then some (qualified_fp, sp)
      else qualifyLoop fs st fp rest

/-- SearchPaths::do_qualify: returns the qualified path and the originating
search path (none models the null search_path_cstr). -/
def do_qualify (fs : String → Bool) (st : SearchPaths) (filepath : String) :
    String × Option String :=
  if !(isAbsolute filepath) then
    match qualifyLoop fs st filepath st.all_paths.reverse with
    | some (qualified_fp, sp) => (makePreferred qualified_fp, some sp)
    | none =>
        if st.has_root_path then
          if fs (pjoin st.root_path filepath) then
            (makePreferred (pjoin st.root_path filepath), none)
          else (filepath, none)
        else (filepath, none)
  else (filepath, none)

/-- A string of one separator character, as built by string(1, separator). -/
def sepStr (c : Char) : String := String.mk [c]

/-- The emission loop of SearchPaths::do_to_string: skip relative entries when
no root path is set, resolve relative entries against the root otherwise, and
append to the accumulated string with a separator when it is non-empty. -/
def toStringLoop (st : SearchPaths) (separator : Char) :
    List String → String → String
  | [], acc => acc
  | p :: rest, acc =>
      if !(isAbsolute p) && !(st.has_root_path) then
        toStringLoop st separator rest acc
      else
        let p' := if !(isAbsolute p) then pjoin st.root_path p else p
        toStringLoop st separator rest
          ((if acc == "" then acc else acc ++ sepStr separator) ++ p')

/-- SearchPaths::do_to_string: collect the root path (when set) followed by
the combined paths, optionally reverse the whole sequence, then run the
emission loop. -/
def do_to_string (st : SearchPaths) (separator : Char) (reversed : Bool) :
    String :=
  let paths := (if st.has_root_path then [st.root_path] else []) ++ st.all_paths
  let paths := if reversed then paths.reverse else paths
  toStringLoop st separator paths ""

end SearchPaths

/-!
Spec-side definitions. Each definition below transcribes the wording of the
specification (spec.md sections 4.1 and 4.2) rather than the source, so that
the source-side definitions above can be compared with them by refinement
theorems.
-/

/-- Spec wording of the lookup walk for exists: iterate the candidates (the
combined paths already given last-appended first); anchor a relative candidate
under the root when a root is set; test existence of candidate/target; return
true on first hit. -/
def existWalkSpec (fs : String → Bool) (st : SearchPaths) (target : String) :
    List String → Bool
  | [] => false
  | candidate :: rest =>
      let anchored :=
        if !(isAbsolute candidate) && st.has_root_path then
          pjoin st.root_path candidate
        else candidate
      if fs (pjoin anchored target) then true
      else existWalkSpec fs st target rest

/-- Spec wording of exists: if the target is absolute, test existence directly
and return; if relative, walk the combined paths from last-appended to
first-appended; if no hit and a root is set, additionally test root/target;
if still not found, fall back to testing the target directly. -/
def existSpec (fs : String → Bool) (st : SearchPaths) (target : String) :
    Bool :=
  if isAbsolute target then fs target
  else if existWalkSpec fs st target st.all_paths.reverse then true
  else if st.has_root_path && fs (pjoin st.root_path target) then true
  else fs target

/-- Spec wording of the lookup walk for qualify: the same walk as exists, but
on the first hit return the fully joined, platform-normalized path plus the
raw (unanchored) search-path string that produced the hit. -/
def qualifyWalkSpec (fs : String → Bool) (st : SearchPaths) (target : String) :
    List String → Option (String × String)
  | [] => none
  | candidate :: rest =>
      let anchored :=
        if !(isAbsolute candidate) && st.has_root_path then
          pjoin st.root_path candidate
        else candidate
      if fs (pjoin anchored target) then
        some (makePreferred (pjoin anchored target), candidate)
      else qualifyWalkSpec fs st target rest

/-- Spec wording of qualify: same walk as exists; a hit from the root-path
fallback carries a null originating path; if no candidate matches anywhere in
the search chain or the root, the target is returned unchanged with a null
originating path. -/
def qualifySpec (fs : String → Bool) (st : SearchPaths) (target : String) :
    String × Option String :=
  if isAbsolute target then (target, none)
  else
    match qualifyWalkSpec fs st target st.all_paths.reverse with
    | some (qualified, candidate) => (qualified, some candidate)
    | none =>
        if st.has_root_path && fs (pjoin st.root_path target) then
          (makePreferred (pjoin st.root_path target), none)
        else (target, none)

/-- Join a list of strings with a separator character. -/
def joinSep (sep : Char) : List String → String
  | [] => ""
  | [x] => x
  | x :: y :: rest => x ++ SearchPaths.sepStr sep ++ joinSep sep (y :: rest)

/-- Resolution of one serialized entry, from the spec wording: an absolute
entry stands as is; a relative entry is resolved against the root when a root
is set and is dropped (none) otherwise. -/
def resolveAgainstRoot (st : SearchPaths) (p : String) : Option String :=
  if isAbsolute p then some p
  else if st.has_root_path then some (pjoin st.root_path p) else none

/-- Spec wording of serialize, read literally: the root path is emitted first
when one is set (as is), followed by the combined entries in stored order,
each resolved against the root when relative and dropped when relative with
no root; when reversed, the whole sequence including the root is reversed
before joining. -/
def serializeSpec (st : SearchPaths) (sep : Char) (reversed : Bool) : String :=
  let entries :=
    (if st.has_root_path then [st.root_path] else [])
      ++ st.all_paths.filterMap (resolveAgainstRoot st)
  joinSep sep (if reversed then entries.reverse else entries)

/-- Amended spec wording of serialize: as serializeSpec, except that the root
entry itself is also resolved against the root when it is relative (so a
relative root r is emitted as r/r, as the source does). -/
def serializeSpecAmended (st : SearchPaths) (sep : Char) (reversed : Bool) :
    String :=
  let entries :=
    ((if st.has_root_path then [st.root_path] else []) ++ st.all_paths).filterMap
      (resolveAgainstRoot st)
  joinSep sep (if reversed then entries.reverse else entries)

/-- The resolver states reachable through the public interface: the two
constructors and the mutating operations, with remove subject to its index
contract. -/
inductive Reachable : SearchPaths → Prop where
  | initial : Reachable SearchPaths.initial
  | fromEnv (value : Option String) (separator : Char) :
      Reachable (SearchPaths.fromEnvironment value separator)
  | setRoot {st : SearchPaths} (path : String) :
      Reachable st → Reachable (st.set_root_path path)
  | push {st : SearchPaths} (path : String) :
      Reachable st → Reachable (st.push_back path)
  | splitPush {st : SearchPaths} (paths : String) (separator : Char) :
      Reachable st → Reachable (st.split_and_push_back paths separator)
  | rem {st : SearchPaths} (i : Nat) :
      Reachable st → i < st.size → Reachable (st.remove i)
  | reset {st : SearchPaths} :
      Reachable st → Reachable st.reset
  | clear {st : SearchPaths} :
      Reachable st → Reachable st.clear

/-- The resolver states reachable without ever calling remove. -/
inductive ReachableNR : SearchPaths → Prop where
  | initial : ReachableNR SearchPaths.initial
  | fromEnv (value : Option String) (separator : Char) :
      ReachableNR (SearchPaths.fromEnvironment value separator)
  | setRoot {st : SearchPaths} (path : String) :
      ReachableNR st → ReachableNR (st.set_root_path path)
  | push {st : SearchPaths} (path : String) :
      ReachableNR st → ReachableNR (st.push_back path)
  | splitPush {st : SearchPaths} (paths : String) (separator : Char) :
      ReachableNR st → ReachableNR (st.split_and_push_back paths separator)
  | reset {st : SearchPaths} :
      ReachableNR st → ReachableNR st.reset
  | clear {st : SearchPaths} :
      ReachableNR st → ReachableNR st.clear

/-!
Helper lemmas about the embedded operations.
-/

theorem string_eq_empty_iff (s : String) : s = "" ↔ s.data = [] := by
  constructor
  · intro h; simp [h]
  · intro h; cases s; simp_all

theorem pjoin_ne_empty (a b : String) (h : a ≠ "") : pjoin a b ≠ "" := by
  unfold pjoin
  rw [if_neg h]
  intro hc
  have hd := congrArg String.data hc
  rw [String.data_append, String.data_append] at hd
  have ha : a.data = [] := (List.append_eq_nil.mp (List.append_eq_nil.mp hd).1).1
  exact h ((string_eq_empty_iff a).mpr ha)

theorem isAbsolute_ne_empty (p : String) (h : isAbsolute p = true) : p ≠ "" := by
  intro hc
  subst hc
  simp [isAbsolute] at h

theorem has_root_path_iff (st : SearchPaths) :
    st.has_root_path = true ↔ st.root_path ≠ "" := by
  simp [SearchPaths.has_root_path]

theorem eraseIdx_append_len (l : List String) (p : String) :
    (l ++ [p]).eraseIdx l.length = l := by
  induction l with
  | nil => rfl
  | cons a as ih => simp [List.eraseIdx, ih]

theorem envStep_foldl (ts : List String) (sp : SearchPaths) :
    ts.foldl SearchPaths.envStep sp =
      { sp with
          environment_paths :=
            sp.environment_paths ++ ts.filter (fun t => isAbsolute t && !(t = "")),
          all_paths :=
            sp.all_paths ++ ts.filter (fun t => isAbsolute t && !(t = "")) } := by
  induction ts generalizing sp with
  | nil => cases sp; simp
  | cons t ts ih =>
      rw [List.foldl_cons, ih]
      unfold SearchPaths.envStep
      by_cases habs : isAbsolute t = true
      · by_cases hemp : t = ""
        · subst hemp; simp_all [isAbsolute]
        · simp [habs, hemp, List.filter_cons]
      · simp at habs
        simp [habs, List.filter_cons]

theorem push_back_foldl (l : List String) (st : SearchPaths) :
    l.foldl SearchPaths.push_back st =
      { st with
          explicit_paths := st.explicit_paths ++ l,
          all_paths := st.all_paths ++ l } := by
  induction l generalizing st with
  | nil => cases st; simp
  | cons p ps ih =>
      rw [List.foldl_cons, ih]
      simp [SearchPaths.push_back]

theorem split_and_push_back_fields (st : SearchPaths) (s : String) (sep : Char) :
    (st.split_and_push_back s sep).root_path = st.root_path ∧
    (st.split_and_push_back s sep).environment_paths = st.environment_paths ∧
    (st.split_and_push_back s sep).explicit_paths
        = st.explicit_paths ++ splitChar sep s ∧
    (st.split_and_push_back s sep).all_paths = st.all_paths ++ splitChar sep s := by
  unfold SearchPaths.split_and_push_back
  rw [push_back_foldl]
  exact ⟨rfl, rfl, rfl, rfl⟩

theorem existWalk_eq (fs : String → Bool) (st : SearchPaths) (fp : String)
    (l : List String) :
    SearchPaths.existLoop fs st fp l = existWalkSpec fs st fp l := by
  induction l with
  | nil => rfl
  | cons sp rest ih =>
      simp only [SearchPaths.existLoop, existWalkSpec, Bool.and_comm, ih]

theorem qualifyWalk_eq (fs : String → Bool) (st : SearchPaths) (fp : String)
    (l : List String) :
    SearchPaths.qualifyLoop fs st fp l = qualifyWalkSpec fs st fp l := by
  induction l with
  | nil => rfl
  | cons sp rest ih =>
      simp only [SearchPaths.qualifyLoop, qualifyWalkSpec, makePreferred,
        Bool.and_comm, ih]

theorem qualifyLoop_isSome (fs : String → Bool) (st : SearchPaths) (fp : String)
    (l : List String) :
    (SearchPaths.qualifyLoop fs st fp l).isSome = SearchPaths.existLoop fs st fp l := by
  induction l with
  | nil => rfl
  | cons sp rest ih =>
      simp only [SearchPaths.qualifyLoop, SearchPaths.existLoop]
      split <;> split <;> simp [ih]

/-- Tail form of joining: each element is preceded by one separator. -/
def joinSepTail (sep : Char) : List String → String
  | [] => ""
  | q :: qs => SearchPaths.sepStr sep ++ q ++ joinSepTail sep qs

theorem joinSep_cons (sep : Char) (q : String) (qs : List String) :
    joinSep sep (q :: qs) = q ++ joinSepTail sep qs := by
  induction qs generalizing q with
  | nil => simp [joinSep, joinSepTail]
  | cons y rest ih =>
      rw [joinSep, joinSepTail, ih y]
      simp [String.append_assoc]

theorem resolveAgainstRoot_ne_empty (st : SearchPaths) (p q : String)
    (h : resolveAgainstRoot st p = some q) : q ≠ "" := by
  unfold resolveAgainstRoot at h
  by_cases habs : isAbsolute p = true
  · rw [if_pos habs] at h
    cases h
    exact isAbsolute_ne_empty p habs
  · simp only [Bool.not_eq_true] at habs
    rw [if_neg (by simp [habs])] at h
    by_cases hroot : st.has_root_path = true
    · rw [if_pos hroot] at h
      cases h
      exact pjoin_ne_empty _ _ ((has_root_path_iff st).mp hroot)
    · simp [hroot] at h

theorem append_ne_empty_left (a b : String) (h : a ≠ "") : a ++ b ≠ "" := by
  intro hc
  have hd := congrArg String.data hc
  rw [String.data_append] at hd
  exact h ((string_eq_empty_iff a).mpr (List.append_eq_nil.mp hd).1)

theorem toStringLoop_cons (st : SearchPaths) (sep : Char) (p : String)
    (rest : List String) (acc : String) :
    SearchPaths.toStringLoop st sep (p :: rest) acc =
      if !(isAbsolute p) && !(st.has_root_path) then
        SearchPaths.toStringLoop st sep rest acc
      else
        SearchPaths.toStringLoop st sep rest
          ((if acc == "" then acc else acc ++ SearchPaths.sepStr sep) ++
            (if !(isAbsolute p) then pjoin st.root_path p else p)) := rfl

theorem toStringLoop_acc (st : SearchPaths) (sep : Char) (l : List String)
    (acc : String) (hacc : acc ≠ "") :
    SearchPaths.toStringLoop st sep l acc
      = acc ++ joinSepTail sep (l.filterMap (resolveAgainstRoot st)) := by
  induction l generalizing acc with
  | nil => simp [SearchPaths.toStringLoop, joinSepTail]
  | cons p rest ih =>
      have haccb : (acc == "") = false := by
        simp only [beq_eq_false_iff_ne, ne_eq]; exact hacc
      rw [toStringLoop_cons]
      by_cases habs : isAbsolute p = true
      · have hres : resolveAgainstRoot st p = some p := by
          simp [resolveAgainstRoot, habs]
        rw [List.filterMap_cons, hres, joinSepTail]
        simp only [habs, Bool.not_true, Bool.false_and, Bool.false_eq_true,
          if_false, haccb, ite_false]
        rw [ih _ (append_ne_empty_left _ _ (append_ne_empty_left _ _ hacc))]
        simp [String.append_assoc]
      · simp only [Bool.not_eq_true] at habs
        by_cases hroot : st.has_root_path = true
        · have hres : resolveAgainstRoot st p = some (pjoin st.root_path p) := by
            simp [resolveAgainstRoot, habs, hroot]
          rw [List.filterMap_cons, hres, joinSepTail]
          simp only [habs, hroot, Bool.not_false, Bool.not_true, Bool.and_false,
            Bool.false_eq_true, if_false, haccb, ite_false, ite_true]
          rw [ih _ (append_ne_empty_left _ _ (append_ne_empty_left _ _ hacc))]
          simp [String.append_assoc]
        · simp only [Bool.not_eq_true] at hroot
          have hres : resolveAgainstRoot st p = none := by
            simp [resolveAgainstRoot, habs, hroot]
          rw [List.filterMap_cons, hres]
          simp only [habs, hroot, Bool.not_false, Bool.and_self, if_true]
          exact ih acc hacc

theorem toStringLoop_empty (st : SearchPaths) (sep : Char) (l : List String)
    (hne : ∀ q ∈ l.filterMap (resolveAgainstRoot st), q ≠ "") :
    SearchPaths.toStringLoop st sep l ""
      = joinSep sep (l.filterMap (resolveAgainstRoot st)) := by
  induction l with
  | nil => rfl
  | cons p rest ih =>
      rw [toStringLoop_cons]
      by_cases habs : isAbsolute p = true
      · have hres : resolveAgainstRoot st p = some p := by
          simp [resolveAgainstRoot, habs]
        rw [List.filterMap_cons, hres]
        have hp : p ≠ "" := isAbsolute_ne_empty p habs
        simp only [habs, Bool.not_true, Bool.false_and, Bool.false_eq_true,
          if_false, ite_false]
        rw [show (("" : String) == "") = true from rfl]
        simp only [ite_true, String.empty_append]
        rw [toStringLoop_acc st sep rest p hp, joinSep_cons]
      · simp only [Bool.not_eq_true] at habs
        by_cases hroot : st.has_root_path = true
        · have hres : resolveAgainstRoot st p = some (pjoin st.root_path p) := by
            simp [resolveAgainstRoot, habs, hroot]
          rw [List.filterMap_cons, hres]
          have hp : pjoin st.root_path p ≠ "" :=
            pjoin_ne_empty _ _ ((has_root_path_iff st).mp hroot)
          simp only [habs, hroot, Bool.not_false, Bool.not_true, Bool.and_false,
            Bool.false_eq_true, if_false, ite_false, ite_true]
          rw [show (("" : String) == "") = true from rfl]
          simp only [ite_true, String.empty_append]
          rw [toStringLoop_acc st sep rest _ hp, joinSep_cons]
        · simp only [Bool.not_eq_true] at hroot
          have hres : resolveAgainstRoot st p = none := by
            simp [resolveAgainstRoot, habs, hroot]
          rw [List.filterMap_cons, hres]
          simp only [habs, hroot, Bool.not_false, Bool.and_self, if_true]
          refine ih ?_
          intro q hq
          exact hne q (by rw [List.filterMap_cons, hres]; exact hq)

theorem existLoop_ext (fs : String → Bool) (fp : String) (st st' : SearchPaths)
    (hroot : st.root_path = st'.root_path) (l : List String) :
    SearchPaths.existLoop fs st fp l = SearchPaths.existLoop fs st' fp l := by
  have hh : st.has_root_path = st'.has_root_path := by
    simp [SearchPaths.has_root_path, hroot]
  induction l with
  | nil => rfl
  | cons sp rest ih => simp only [SearchPaths.existLoop, hh, hroot, ih]

theorem qualifyLoop_ext (fs : String → Bool) (fp : String) (st st' : SearchPaths)
    (hroot : st.root_path = st'.root_path) (l : List String) :
    SearchPaths.qualifyLoop fs st fp l = SearchPaths.qualifyLoop fs st' fp l := by
  have hh : st.has_root_path = st'.has_root_path := by
    simp [SearchPaths.has_root_path, hroot]
  induction l with
  | nil => rfl
  | cons sp rest ih => simp only [SearchPaths.qualifyLoop, hh, hroot, ih]

theorem exist_ext (fs : String → Bool) (fp : String) (st st' : SearchPaths)
    (hroot : st.root_path = st'.root_path) (hall : st.all_paths = st'.all_paths) :
    SearchPaths.exist fs st fp = SearchPaths.exist fs st' fp := by
  have hh : st.has_root_path = st'.has_root_path := by
    simp [SearchPaths.has_root_path, hroot]
  simp only [SearchPaths.exist, hh, hroot, hall,
    existLoop_ext fs fp st st' hroot]

theorem do_qualify_ext (fs : String → Bool) (fp : String) (st st' : SearchPaths)
    (hroot : st.root_path = st'.root_path) (hall : st.all_paths = st'.all_paths) :
    SearchPaths.do_qualify fs st fp = SearchPaths.do_qualify fs st' fp := by
  have hh : st.has_root_path = st'.has_root_path := by
    simp [SearchPaths.has_root_path, hroot]
  simp only [SearchPaths.do_qualify, hh, hroot, hall,
    qualifyLoop_ext fs fp st st' hroot]

theorem toStringLoop_ext (sep : Char) (st st' : SearchPaths)
    (hroot : st.root_path = st'.root_path) (l : List String) (acc : String) :
    SearchPaths.toStringLoop st sep l acc = SearchPaths.toStringLoop st' sep l acc := by
  have hh : st.has_root_path = st'.has_root_path := by
    simp [SearchPaths.has_root_path, hroot]
  induction l generalizing acc with
  | nil => rfl
  | cons p rest ih =>
      rw [toStringLoop_cons, toStringLoop_cons, hh, hroot]
      by_cases hc : (!(isAbsolute p) && !(st'.has_root_path)) = true
      · rw [if_pos hc, if_pos hc]; exact ih acc
      · rw [if_neg hc, if_neg hc]; exact ih _

theorem do_to_string_ext (sep : Char) (rev : Bool) (st st' : SearchPaths)
    (hroot : st.root_path = st'.root_path) (hall : st.all_paths = st'.all_paths) :
    SearchPaths.do_to_string st sep rev = SearchPaths.do_to_string st' sep rev := by
  have hh : st.has_root_path = st'.has_root_path := by
    simp [SearchPaths.has_root_path, hroot]
  simp only [SearchPaths.do_to_string, hh, hroot, hall,
    toStringLoop_ext sep st st' hroot]

/-!
Claim theorems.
-/

/-- C1 (counterexample): the stated invariant CombinedPaths =
EnvironmentPaths ++ ExplicitPaths fails on a reachable state: after
push_back "a" followed by remove 0, the combined list still holds "a"
while both other lists are empty, because SearchPaths::remove does not
touch m_all_paths. -/
theorem searchpaths_combined_inv_cex :
    Reachable ((SearchPaths.initial.push_back "a").remove 0) ∧
    ((SearchPaths.initial.push_back "a").remove 0).all_paths ≠
      ((SearchPaths.initial.push_back "a").remove 0).environment_paths ++
        ((SearchPaths.initial.push_back "a").remove 0).explicit_paths := by
  constructor
  · exact Reachable.rem 0 (Reachable.push "a" Reachable.initial) (by decide)
  · decide

/-- C1 (amended): for every state reachable without remove, the combined
list equals EnvironmentPaths ++ ExplicitPaths; remove itself drops only the
indexed explicit entry and leaves the environment and combined lists
unchanged. -/
theorem searchpaths_combined_inv_amended :
    (∀ st : SearchPaths, ReachableNR st →
        st.all_paths = st.environment_paths ++ st.explicit_paths) ∧
    (∀ (st : SearchPaths) (i : Nat), i < st.size →
        (st.remove i).all_paths = st.all_paths ∧
        (st.remove i).environment_paths = st.environment_paths ∧
        (st.remove i).explicit_paths = st.explicit_paths.eraseIdx i) := by
  constructor
  · intro st h
    induction h with
    | initial => rfl
    | fromEnv v sep =>
        cases v with
        | none => rfl
        | some s =>
            have hrw : SearchPaths.fromEnvironment (some s) sep
                = (splitChar sep s).foldl SearchPaths.envStep
                    SearchPaths.initial := rfl
            rw [hrw, envStep_foldl]
            simp [SearchPaths.initial]
    | setRoot p _ ih => simpa [SearchPaths.set_root_path] using ih
    | push p _ ih => simp [SearchPaths.push_back, ih]
    | splitPush s sep _ ih =>
        rename_i st' _
        obtain ⟨_, henv, hexp, hall⟩ := split_and_push_back_fields st' s sep
        rw [hall, henv, hexp, ih, List.append_assoc]
    | reset _ ih => simp [SearchPaths.reset]
    | clear _ ih => rfl
  · intro st i _h
    exact ⟨rfl, rfl, rfl⟩

/-- C1 (witness for the amended theorem). -/
theorem searchpaths_combined_inv_amended_witness :
    ReachableNR (SearchPaths.initial.push_back "a") ∧
    (SearchPaths.initial.push_back "a").all_paths =
      (SearchPaths.initial.push_back "a").environment_paths ++
        (SearchPaths.initial.push_back "a").explicit_paths ∧
    0 < (SearchPaths.initial.push_back "a").size ∧
    ((SearchPaths.initial.push_back "a").remove 0).all_paths =
      (SearchPaths.initial.push_back "a").all_paths := by
  have h : ReachableNR (SearchPaths.initial.push_back "a") :=
    ReachableNR.push "a" ReachableNR.initial
  exact ⟨h, searchpaths_combined_inv_amended.1 _ h, by decide,
    (searchpaths_combined_inv_amended.2 _ 0 (by decide)).1⟩

/-- C2: SearchPaths::exist coincides with the walk described by the spec
(reverse iteration over the combined paths with root anchoring, then the
root fallback, then the plain existence test), and an absolute target is
tested directly against the filesystem without consulting any search
path. -/
theorem searchpaths_exist_conform (fs : String → Bool) (st : SearchPaths)
    (target : String) :
    SearchPaths.exist fs st target = existSpec fs st target ∧
    (isAbsolute target = true → SearchPaths.exist fs st target = fs target) := by
  constructor
  · unfold SearchPaths.exist existSpec
    cases habs : isAbsolute target
    · simp only [habs, Bool.not_false, if_true, Bool.false_eq_true, if_false,
        existWalk_eq]
    · simp [habs]
  · intro habs
    simp [SearchPaths.exist, habs]

/-- C2 (witness). -/
theorem searchpaths_exist_conform_witness :
    isAbsolute "/x" = true ∧
    SearchPaths.exist (fun _ => false) SearchPaths.initial "/x" =
      (fun _ => false) "/x" :=
  ⟨by decide,
    (searchpaths_exist_conform (fun _ => false) SearchPaths.initial "/x").2
      (by decide)⟩

/-- C3: SearchPaths::do_qualify coincides with the walk described by the
spec (first hit returns the joined normalized path plus the raw search-path
entry, a root-fallback hit carries a null originating path, no match returns
the input with a null originating path); moreover whenever exist is false,
do_qualify degrades to returning the input target with a null originating
path. -/
theorem searchpaths_qualify_conform (fs : String → Bool) (st : SearchPaths)
    (target : String) :
    SearchPaths.do_qualify fs st target = qualifySpec fs st target ∧
    (SearchPaths.exist fs st target = false →
      SearchPaths.do_qualify fs st target = (target, none)) := by
  constructor
  · unfold SearchPaths.do_qualify qualifySpec
    cases habs : isAbsolute target
    · simp only [habs, Bool.not_false, if_true, Bool.false_eq_true, if_false,
        qualifyWalk_eq, makePreferred]
      cases hq : qualifyWalkSpec fs st target st.all_paths.reverse with
      | none =>
          by_cases hroot : st.has_root_path = true
          · by_cases hfs : fs (pjoin st.root_path target) = true
            · simp [hroot, hfs]
            · simp only [Bool.not_eq_true] at hfs
              simp [hroot, hfs]
          · simp only [Bool.not_eq_true] at hroot
            simp [hroot]
      | some qp => rfl
    · simp [habs]
  · intro hex
    unfold SearchPaths.exist at hex
    cases habs : isAbsolute target
    · rw [habs] at hex
      simp only [Bool.not_false, if_true] at hex
      split_ifs at hex with h1 h2
      have hloop : SearchPaths.existLoop fs st target st.all_paths.reverse
            = false := by
          simpa using h1
      have hq : SearchPaths.qualifyLoop fs st target st.all_paths.reverse
          = none := by
        have := qualifyLoop_isSome fs st target st.all_paths.reverse
        rw [hloop] at this
        exact Option.not_isSome_iff_eq_none.mp (by simp [this])
      unfold SearchPaths.do_qualify
      rw [habs, hq]
      simp only [Bool.not_false, if_true]
      by_cases hroot : st.has_root_path = true
      · have hfs : fs (pjoin st.root_path target) = false := by
          by_contra hc
          simp only [Bool.not_eq_false] at hc
          exact h2 (by simp [hroot, hc])
        simp [hroot, hfs]
      · simp only [Bool.not_eq_true] at hroot
        simp [hroot]
    · unfold SearchPaths.do_qualify
      rw [habs]
      simp

/-- C3 (witness). -/
theorem searchpaths_qualify_conform_witness :
    SearchPaths.exist (fun _ => false) SearchPaths.initial "t" = false ∧
    SearchPaths.do_qualify (fun _ => false) SearchPaths.initial "t"
      = ("t", none) :=
  ⟨by decide,
    (searchpaths_qualify_conform (fun _ => false) SearchPaths.initial "t").2
      (by decide)⟩

/-- C4 (counterexample): append "a" to the empty resolver then remove at
explicitCount()-1; the combined list is not restored, because remove leaves
m_all_paths untouched. -/
theorem searchpaths_append_remove_cex :
    ((SearchPaths.initial.push_back "a").remove
        ((SearchPaths.initial.push_back "a").size - 1)).all_paths
      ≠ SearchPaths.initial.all_paths := by
  decide

/-- C4 (amended): append(p) followed by removeAt(explicitCount()-1) restores
explicitCount() and ExplicitPaths to their prior values, but CombinedPaths
keeps the appended entry at its end. -/
theorem searchpaths_append_remove_amended (st : SearchPaths) (p : String) :
    ((st.push_back p).remove ((st.push_back p).size - 1)).explicit_paths
        = st.explicit_paths ∧
    ((st.push_back p).remove ((st.push_back p).size - 1)).size = st.size ∧
    ((st.push_back p).remove ((st.push_back p).size - 1)).all_paths
        = st.all_paths ++ [p] := by
  have hsz : (st.push_back p).size - 1 = st.explicit_paths.length := by
    simp [SearchPaths.push_back, SearchPaths.size]
  have hexp :
      ((st.push_back p).remove ((st.push_back p).size - 1)).explicit_paths
        = st.explicit_paths := by
    rw [hsz]
    simp only [SearchPaths.remove, SearchPaths.push_back]
    exact eraseIdx_append_len st.explicit_paths p
  refine ⟨hexp, ?_, rfl⟩
  show ((st.push_back p).remove
      ((st.push_back p).size - 1)).explicit_paths.length
    = st.explicit_paths.length
  rw [hexp]

/-- C5 (counterexample): with a relative root path "r" the serializer emits
"r/r" (the root resolved against itself), not the root path "r" that the
claim's wording prescribes. -/
theorem searchpaths_serialize_cex :
    SearchPaths.do_to_string (SearchPaths.initial.set_root_path "r") ':' false
      ≠ serializeSpec (SearchPaths.initial.set_root_path "r") ':' false := by
  decide

/-- C5 (amended): do_to_string emits the root first when one is set, the root
itself being resolved against the root when relative, followed by the
combined entries in stored order, each resolved against the root when
relative and dropped when relative with no root; when reversed, the whole
sequence including the root is reversed before joining with the
separator. -/
theorem searchpaths_serialize_amended (st : SearchPaths) (sep : Char)
    (rev : Bool) :
    SearchPaths.do_to_string st sep rev = serializeSpecAmended st sep rev := by
  have hne : ∀ q ∈ ((if st.has_root_path then [st.root_path] else [])
      ++ st.all_paths).filterMap (resolveAgainstRoot st), q ≠ "" := by
    intro q hq
    rw [List.mem_filterMap] at hq
    obtain ⟨a, _, ha⟩ := hq
    exact resolveAgainstRoot_ne_empty st a q ha
  cases rev with
  | false =>
      exact toStringLoop_empty st sep _ hne
  | true =>
      have hne' : ∀ q ∈ ((if st.has_root_path then [st.root_path] else [])
          ++ st.all_paths).reverse.filterMap (resolveAgainstRoot st), q ≠ "" := by
        intro q hq
        rw [List.mem_filterMap] at hq
        obtain ⟨a, _, ha⟩ := hq
        exact resolveAgainstRoot_ne_empty st a q ha
      have h := toStringLoop_empty st sep
        ((if st.has_root_path then [st.root_path] else [])
          ++ st.all_paths).reverse hne'
      rw [List.filterMap_reverse] at h
      exact h

/-- C6: reset is idempotent, and after reset the explicit count is zero and
the combined list equals exactly the environment paths. -/
theorem searchpaths_reset_props (st : SearchPaths) :
    st.reset.reset = st.reset ∧
    st.reset.size = 0 ∧
    st.reset.explicit_paths = [] ∧
    st.reset.all_paths = st.environment_paths :=
  ⟨rfl, rfl, rfl, rfl⟩

/-- C7: the environment-seeded constructor keeps exactly the tokens that are
absolute and non-empty, in order, placing them identically in
EnvironmentPaths and CombinedPaths with no explicit paths, so every element
of EnvironmentPaths is absolute. -/
theorem searchpaths_env_ctor (v : String) (sep : Char) :
    (SearchPaths.fromEnvironment (some v) sep).environment_paths
        = (splitChar sep v).filter (fun t => isAbsolute t && !(t = "")) ∧
    (SearchPaths.fromEnvironment (some v) sep).all_paths
        = (SearchPaths.fromEnvironment (some v) sep).environment_paths ∧
    (SearchPaths.fromEnvironment (some v) sep).explicit_paths = [] ∧
    (∀ p, p ∈ (SearchPaths.fromEnvironment (some v) sep).environment_paths →
        isAbsolute p = true) := by
  have hrw : SearchPaths.fromEnvironment (some v) sep
      = (splitChar sep v).foldl SearchPaths.envStep SearchPaths.initial := rfl
  rw [hrw, envStep_foldl]
  refine ⟨by simp [SearchPaths.initial], by simp [SearchPaths.initial],
    by simp [SearchPaths.initial], ?_⟩
  intro p hp
  simp only [SearchPaths.initial, List.nil_append] at hp
  rw [List.mem_filter] at hp
  have hkeep := hp.2
  simp only [Bool.and_eq_true] at hkeep
  exact hkeep.1

/-- C7 (witness). -/
theorem searchpaths_env_ctor_witness :
    "/a" ∈ (SearchPaths.fromEnvironment (some "/a:rel") ':').environment_paths ∧
    isAbsolute "/a" = true :=
  ⟨by decide, (searchpaths_env_ctor "/a:rel" ':').2.2.2 "/a" (by decide)⟩

/-- C8: split_and_push_back splits on the separator and appends each token in
order to both ExplicitPaths and CombinedPaths, keeping empty tokens; in
particular "a:b::c" on the empty resolver yields the four explicit entries
a, b, empty, c. -/
theorem searchpaths_split_push (st : SearchPaths) (s : String) (sep : Char) :
    (st.split_and_push_back s sep).explicit_paths
        = st.explicit_paths ++ splitChar sep s ∧
    (st.split_and_push_back s sep).all_paths
        = st.all_paths ++ splitChar sep s ∧
    (SearchPaths.initial.split_and_push_back "a:b::c" ':').explicit_paths
        = ["a", "b", "", "c"] :=
  ⟨(split_and_push_back_fields st s sep).2.2.1,
    (split_and_push_back_fields st s sep).2.2.2, by decide⟩

theorem length_eraseIdx_add_one (l : List String) (i : Nat)
    (h : i < l.length) : (l.eraseIdx i).length + 1 = l.length := by
  induction l generalizing i with
  | nil => simp at h
  | cons a as ih =>
      cases i with
      | zero => simp [List.eraseIdx]
      | succ j =>
          have hj : j < as.length := Nat.lt_of_succ_lt_succ h
          simp only [List.eraseIdx, List.length_cons]
          rw [← ih j hj]

/-- C9: under the contract index < explicitCount(), the indexed read returns
the index-th explicit path and the indexed remove is well defined (it
shortens ExplicitPaths by one); an out-of-range index violates the modelled
assertion and yields none from both checked operations. -/
theorem searchpaths_index_contract (st : SearchPaths) (i : Nat) :
    (i < st.size →
        st.get i = st.explicit_paths.get? i ∧
        (st.get i).isSome = true ∧
        st.removeChecked i = some (st.remove i) ∧
        (st.remove i).size + 1 = st.size) ∧
    (st.size ≤ i → st.get i = none ∧ st.removeChecked i = none) := by
  constructor
  · intro h
    have h' : i < st.explicit_paths.length := h
    refine ⟨by simp [SearchPaths.get, h], ?_,
      by simp [SearchPaths.removeChecked, h], ?_⟩
    · simp [SearchPaths.get, h, List.get?_eq_getElem?,
        List.getElem?_eq_getElem h']
    · exact length_eraseIdx_add_one st.explicit_paths i h'
  · intro h
    have h' : ¬ i < st.size := Nat.not_lt.mpr h
    exact ⟨by simp [SearchPaths.get, h'], by simp [SearchPaths.removeChecked, h']⟩

/-- C9 (witness). -/
theorem searchpaths_index_contract_witness :
    0 < (SearchPaths.initial.push_back "a").size ∧
    (SearchPaths.initial.push_back "a").get 0
      = (SearchPaths.initial.push_back "a").explicit_paths.get? 0 :=
  ⟨by decide,
    ((searchpaths_index_contract (SearchPaths.initial.push_back "a") 0).1
      (by decide)).1⟩

/-- C10: for an in-range index, remove leaves both EnvironmentPaths and
CombinedPaths unchanged and only drops the i-th explicit entry; consequently
exist, do_qualify and do_to_string are unaffected, so a removed explicit
path is still consulted by subsequent lookups. -/
theorem searchpaths_remove_frame (st : SearchPaths) (i : Nat)
    (_h : i < st.size) :
    (st.remove i).environment_paths = st.environment_paths ∧
    (st.remove i).all_paths = st.all_paths ∧
    (st.remove i).explicit_paths = st.explicit_paths.eraseIdx i ∧
    (∀ (fs : String → Bool) (fp : String),
        SearchPaths.exist fs (st.remove i) fp = SearchPaths.exist fs st fp) ∧
    (∀ (fs : String → Bool) (fp : String),
        SearchPaths.do_qualify fs (st.remove i) fp
          = SearchPaths.do_qualify fs st fp) ∧
    (∀ (sep : Char) (rev : Bool),
        (st.remove i).do_to_string sep rev = st.do_to_string sep rev) := by
  refine ⟨rfl, rfl, rfl, ?_, ?_, ?_⟩
  · intro fs fp
    exact exist_ext fs fp (st.remove i) st rfl rfl
  · intro fs fp
    exact do_qualify_ext fs fp (st.remove i) st rfl rfl
  · intro sep rev
    exact do_to_string_ext sep rev (st.remove i) st rfl rfl

/-- C10 (witness). -/
theorem searchpaths_remove_frame_witness :
    0 < (SearchPaths.initial.push_back "a").size ∧
    ((SearchPaths.initial.push_back "a").remove 0).all_paths
      = (SearchPaths.initial.push_back "a").all_paths :=
  ⟨by decide,
    (searchpaths_remove_frame (SearchPaths.initial.push_back "a") 0
      (by decide)).2.1⟩
